import Mathlib

/-!
# Verification of the `joinkit` join library

This file is a shallow embedding, in Lean 4, of the `joinkit` Rust crate:
SQL-like hash-join and merge-join operators over two keyed input sequences
(`src/hash_join.rs`, `src/merge_join.rs`), together with the key-extraction
utilities (`src/util.rs`) and the arity computations of the two CLI
front-ends (`src/bin/hjoin.rs`, `src/bin/mjoin.rs`).

Modelling conventions:
* Rust iterators become Lean `List`s; a lazy adaptor becomes the total list
  of elements it would yield.
* `HashMap<K, Vec<RV>>` (built with `entry(k).or_insert(vec)` + `push`)
  becomes an association list `List (K × List RV)` with one entry per
  distinct key, the values of each key kept in insertion order.  Where the
  Rust `HashMap` iteration order is unspecified, the model fixes the
  first-insertion order of keys; every theorem below that touches the drain
  phase is order-insensitive (counting, membership, or permutation), so
  this choice is immaterial.
* Machine integers are modelled as `Nat`/`Int` with explicit range checks
  where the code's behaviour depends on them (`u64`/`i64` parsing, `usize`
  subtraction).
* Fallible paths (Rust `Result`, `panic!`-style aborts via `expect`)
  become `Except`/`Option`.
-/

/-- `EitherOrBoth<L, R>` from `src/lib.rs` (lines 40-55): the element type of
the outer-join result streams. -/
inductive EitherOrBoth (L R : Type) where
  | left (l : L)
  | right (r : R)
  | both (l : L) (r : R)
deriving DecidableEq

/-- Whether an `EitherOrBoth` value is the `Right` variant. -/
def EitherOrBoth.isRightArm : EitherOrBoth L R → Bool
  | .right _ => true
  | _ => false

/-! ## The right-side multimap of the hash-join family

`HashJoinInner::new` (src/hash_join.rs lines 45-59) drains the right
iterator into `HashMap<K, Vec<RV>>` via
`map.entry(k).or_insert(Vec::with_capacity(1)); values.push(v)`.
`insertMulti` performs one such step on the association-list model and
`buildMulti` folds it over the right input. -/

/-- One `entry(k).or_insert(vec![]).push(v)` step: append `v` to the value
list of `k`, creating the entry at the end if the key is new. -/
def insertMulti [DecidableEq K] : List (K × List V) → K → V → List (K × List V)
  | [], k, v => [(k, [v])]
  | (k', vs) :: m, k, v =>
    if k' = k then (k', vs ++ [v]) :: m else (k', vs) :: insertMulti m k v

/-- The multimap built from the right input, as in `HashJoinInner::new`
(src/hash_join.rs lines 50-54). -/
def buildMulti [DecidableEq K] (R : List (K × V)) : List (K × List V) :=
  R.foldl (fun m p => insertMulti m p.1 p.2) []

/-- `HashMap::get` on the association-list model. -/
def lookupM [DecidableEq K] : List (K × List V) → K → Option (List V)
  | [], _ => none
  | (k', vs) :: m, k => if k' = k then some vs else lookupM m k

theorem lookupM_insertMulti [DecidableEq K] (m : List (K × List V)) (k k' : K) (v : V) :
    lookupM (insertMulti m k v) k' =
      if k' = k then some (((lookupM m k).getD []) ++ [v]) else lookupM m k' := by
  induction m with
  | nil =>
    by_cases h : k' = k
    · subst h; simp [insertMulti, lookupM]
    · have h2 : ¬ (k = k') := fun h' => h h'.symm
      simp [insertMulti, lookupM, h, h2]
  | cons a m ih =>
    obtain ⟨ka, vsa⟩ := a
    by_cases hak : ka = k
    · subst hak
      by_cases hk' : k' = ka
      · subst hk'; simp [insertMulti, lookupM]
      · have h2 : ¬ (ka = k') := fun h' => hk' h'.symm
        simp [insertMulti, lookupM, hk', h2]
    · by_cases hk2 : ka = k'
      · subst hk2
        have h3 : ¬ (ka = k) := hak
        simp [insertMulti, lookupM, hak, h3]
      · simp [insertMulti, lookupM, hak, hk2, ih]

/-- `filterValues R k` is the sequence of right values carrying key `k`, in
right-input order. -/
def filterValues [DecidableEq K] (R : List (K × V)) (k : K) : List V :=
  (R.filter (fun q => decide (q.1 = k))).map Prod.snd

theorem lookupM_foldl [DecidableEq K] (R : List (K × V)) (m : List (K × List V)) (k : K) :
    lookupM (R.foldl (fun m p => insertMulti m p.1 p.2) m) k =
      match lookupM m k with
      | some vs => some (vs ++ filterValues R k)
      | none => if (filterValues R k).isEmpty then none else some (filterValues R k) := by
  induction R generalizing m with
  | nil =>
    simp only [List.foldl_nil]
    cases lookupM m k <;> simp [filterValues]
  | cons p R ih =>
    obtain ⟨pk, pv⟩ := p
    simp only [List.foldl_cons]
    rw [ih]
    by_cases hpk : pk = k
    · subst hpk
      rw [lookupM_insertMulti]
      simp only [if_pos rfl]
      have hv : filterValues ((pk, pv) :: R) pk = pv :: filterValues R pk := by
        simp [filterValues]
      rw [hv]
      cases h : lookupM m pk with
      | some vs => simp [h]
      | none => simp [h]
    · rw [lookupM_insertMulti]
      have hne : ¬ (k = pk) := fun h => hpk h.symm
      simp only [if_neg hne]
      have hv : filterValues ((pk, pv) :: R) k = filterValues R k := by
        simp [filterValues, hpk]
      rw [hv]

/-- The content of `buildMulti` at a key: `none` exactly when the key does
not occur in the right input, otherwise all its right values in
right-input order. -/
theorem lookupM_buildMulti [DecidableEq K] (R : List (K × V)) (k : K) :
    lookupM (buildMulti R) k =
      if (filterValues R k).isEmpty then none else some (filterValues R k) := by
  unfold buildMulti
  rw [lookupM_foldl]
  simp [lookupM]

/-! ## Hash-join operators (src/hash_join.rs) -/

/-- `HashJoinInner` (src/hash_join.rs lines 36-80): build the multimap from
the right input, then stream the left input, emitting `(lv, map[k])` for
each left item whose key is present and skipping the rest. -/
def hash_join_inner [DecidableEq K] (L : List (K × LV)) (R : List (K × RV)) :
    List (LV × List RV) :=
  let m := buildMulti R
  L.filterMap fun p => (lookupM m p.1).map fun vs => (p.2, vs)

/-- Modelled from the spec's words (§4.1: "For each left item with `k ∈ M`,
emit `(lv, M[k])`; skip unmatched left items", with `M[k]` the right values
of `k` in right-input order): the expected inner-join output, written
directly in terms of the right input. -/
def hash_join_inner_spec [DecidableEq K] (L : List (K × LV)) (R : List (K × RV)) :
    List (LV × List RV) :=
  L.filterMap fun p =>
    if (filterValues R p.1).isEmpty then none else some (p.2, filterValues R p.1)

/-- `HashJoinLeftExcl` (src/hash_join.rs lines 85-130): collect the set of
right keys, then stream the left input emitting the values whose key is
absent from the set. -/
def hash_join_left_excl [DecidableEq K] (L : List (K × LV)) (R : List (K × RV)) :
    List LV :=
  L.filterMap fun p =>
    if R.any (fun q => decide (q.1 = p.1)) then none else some p.2

/-- `HashJoinLeftOuter` (src/hash_join.rs lines 135-179): stream the left
input; emit `Both(lv, map[k])` on a hit and `Left(lv)` on a miss. -/
def hash_join_left_outer [DecidableEq K] (L : List (K × LV)) (R : List (K × RV)) :
    List (EitherOrBoth LV (List RV)) :=
  let m := buildMulti R
  L.map fun p =>
    match lookupM m p.1 with
    | some vs => .both p.2 vs
    | none => .left p.2

/-- `HashJoinRightExcl` (src/hash_join.rs lines 184-257).  The streaming
phase only marks the `matched` flag of each map entry hit by a left key and
emits nothing; after the left input is exhausted the map is drained,
emitting the value list of every entry whose flag is still `false`.  Since
an entry `(k, vs)` ends up marked exactly when some left item carries key
`k`, the drained output is the map filtered by absence of the key from the
left input.  The Rust `HashMap` drain order is unspecified; the model
drains in first-insertion key order (the claims proved about this operator
are order-insensitive). -/
def hash_join_right_excl [DecidableEq K] (L : List (K × LV)) (R : List (K × RV)) :
    List (List RV) :=
  ((buildMulti R).filter fun e => !(L.any fun q => decide (q.1 = e.1))).map Prod.snd

/-- `HashJoinRightOuter` (src/hash_join.rs lines 262-337), instrumented with
the key of each emission (the code has the key in hand at both emission
sites - `lk` in the streaming phase, the map key in the drain phase - and
merely omits it from the yielded element).  Streaming phase: for each left
item whose key is in the map, mark the entry and emit `Both(lv, entry)`.
Drain phase: emit `Right(vs)` for every unmarked entry, in the model's
first-insertion key order. -/
def hash_join_right_outer_keyed [DecidableEq K] (L : List (K × LV)) (R : List (K × RV)) :
    List (K × EitherOrBoth LV (List RV)) :=
  let m := buildMulti R
  (L.filterMap fun p => (lookupM m p.1).map fun vs => (p.1, EitherOrBoth.both p.2 vs))
    ++ ((m.filter fun e => !(L.any fun q => decide (q.1 = e.1))).map
          fun e => (e.1, EitherOrBoth.right e.2))

/-- `HashJoinRightOuter`'s actual output: the keyed model with the keys
erased. -/
def hash_join_right_outer [DecidableEq K] (L : List (K × LV)) (R : List (K × RV)) :
    List (EitherOrBoth LV (List RV)) :=
  (hash_join_right_outer_keyed L R).map Prod.snd

/-- C1.  Hash inner-join completeness: `hash_join_inner` equals the
spec-side description - for every left item `(k, lv)` whose key occurs in
the right input with values `[rv_1..rv_n]` in right-input order, the output
contains exactly one element `(lv, [rv_1..rv_n])`, at that left item's
position (both sides are `filterMap`s over the left input, so positions
correspond); left items whose key does not occur in the right input
contribute no element. -/
theorem hash_inner_completeness {K LV RV : Type} [DecidableEq K]
    (L : List (K × LV)) (R : List (K × RV)) :
    hash_join_inner L R = hash_join_inner_spec L R := by
  unfold hash_join_inner hash_join_inner_spec
  apply List.filterMap_congr
  intro p _
  rw [lookupM_buildMulti]
  by_cases h : (filterValues R p.1).isEmpty <;> simp [h]

/-- C9.  Left-outer output shape: every element yielded by
`hash_join_left_outer` is `Both(lv, rvv)` or `Left(lv)`; the `Right`
variant is never produced (so the `unreachable!` arm of hjoin's left-outer
mode, src/bin/hjoin.rs lines 206-215, is indeed never reached). -/
theorem hash_left_outer_shape {K LV RV : Type} [DecidableEq K]
    (L : List (K × LV)) (R : List (K × RV))
    (e : EitherOrBoth LV (List RV)) (he : e ∈ hash_join_left_outer L R) :
    e.isRightArm = false := by
  unfold hash_join_left_outer at he
  obtain ⟨p, _, hp⟩ := List.mem_map.mp he
  cases h : lookupM (buildMulti R) p.1 <;>
    simp only [h] at hp <;> subst hp <;> rfl

/-- Witness for C9 at a concrete input: `Left "a"` is an element of the
left-outer join of `[(0, "a")]` with the empty right input, and it is not
the `Right` variant. -/
theorem hash_left_outer_shape_witness :
    (EitherOrBoth.left "a" ∈
        hash_join_left_outer [((0 : Nat), "a")] ([] : List (Nat × String)))
      ∧ (EitherOrBoth.left "a" : EitherOrBoth String (List String)).isRightArm = false :=
  ⟨by decide, hash_left_outer_shape [((0 : Nat), "a")] [] _ (by decide)⟩

/-! ## Keys of the multimap -/

theorem lookupM_eq_none_iff [DecidableEq K] (m : List (K × List V)) (k : K) :
    lookupM m k = none ↔ k ∉ m.map Prod.fst := by
  induction m with
  | nil => simp [lookupM]
  | cons a m ih =>
    obtain ⟨ka, vs⟩ := a
    by_cases h : ka = k
    · subst h; simp [lookupM]
    · have h2 : ¬ k = ka := fun h' => h h'.symm
      simp [lookupM, h, ih, h2]

theorem filterValues_isEmpty_iff [DecidableEq K] (R : List (K × V)) (k : K) :
    (filterValues R k).isEmpty = true ↔ k ∉ R.map Prod.fst := by
  rw [List.isEmpty_iff]
  unfold filterValues
  constructor
  · intro h hk
    obtain ⟨q, hq, hq1⟩ := List.mem_map.mp hk
    have : q ∈ R.filter (fun q => decide (q.1 = k)) :=
      List.mem_filter.mpr ⟨hq, by simp [hq1]⟩
    rw [List.map_eq_nil_iff.mp h] at this
    exact absurd this (List.not_mem_nil q)
  · intro h
    rw [List.map_eq_nil_iff, List.filter_eq_nil_iff]
    intro q hq
    simp only [decide_eq_true_eq]
    intro hq1
    exact h (List.mem_map.mpr ⟨q, hq, hq1⟩)

/-- A key is present in the built multimap exactly when it occurs in the
right input. -/
theorem mem_keys_buildMulti [DecidableEq K] (R : List (K × V)) (k : K) :
    k ∈ (buildMulti R).map Prod.fst ↔ k ∈ R.map Prod.fst := by
  rw [← not_iff_not, ← lookupM_eq_none_iff, lookupM_buildMulti]
  by_cases h : (filterValues R k).isEmpty = true
  · rw [if_pos h]
    simp [(filterValues_isEmpty_iff R k).mp h]
  · rw [if_neg h]
    constructor
    · intro h'; exact absurd h' (by simp)
    · intro h'
      exact absurd ((filterValues_isEmpty_iff R k).mpr h') h

theorem keys_insertMulti [DecidableEq K] (m : List (K × List V)) (k : K) (v : V) :
    (insertMulti m k v).map Prod.fst =
      if k ∈ m.map Prod.fst then m.map Prod.fst else m.map Prod.fst ++ [k] := by
  induction m with
  | nil => simp [insertMulti]
  | cons a m ih =>
    obtain ⟨ka, vs⟩ := a
    by_cases h : ka = k
    · subst h; simp [insertMulti]
    · simp only [insertMulti, if_neg h, List.map_cons, ih]
      have h2 : ¬ k = ka := fun h' => h h'.symm
      have hiff : (k ∈ ka :: m.map Prod.fst) ↔ (k ∈ m.map Prod.fst) := by
        simp [List.mem_cons, h2]
      by_cases hm : k ∈ m.map Prod.fst <;> simp [hm, hiff]

/-- The multimap has one entry per distinct key: its key list has no
duplicates. -/
theorem nodup_keys_buildMulti [DecidableEq K] (R : List (K × V)) :
    ((buildMulti R).map Prod.fst).Nodup := by
  unfold buildMulti
  suffices h : ∀ m : List (K × List V), (m.map Prod.fst).Nodup →
      ((R.foldl (fun m p => insertMulti m p.1 p.2) m).map Prod.fst).Nodup by
    exact h [] (by simp)
  induction R with
  | nil => intro m hm; simpa using hm
  | cons p R ih =>
    intro m hm
    simp only [List.foldl_cons]
    apply ih
    rw [keys_insertMulti]
    by_cases h : p.1 ∈ m.map Prod.fst
    · simpa [h] using hm
    · simp only [if_neg h]
      exact List.Nodup.append hm (List.nodup_singleton _) (by simpa using h)

/-- In a list of pairs whose first components are pairwise distinct, a
present key matches exactly one element. -/
theorem filter_key_length {K A : Type} [DecidableEq K]
    (xs : List (K × A)) (k : K) (h : (xs.map Prod.fst).Nodup) :
    (xs.filter fun e => decide (e.1 = k)).length =
      if k ∈ xs.map Prod.fst then 1 else 0 := by
  induction xs with
  | nil => simp
  | cons a xs ih =>
    obtain ⟨ka, va⟩ := a
    simp only [List.map_cons, List.nodup_cons] at h
    by_cases hk : ka = k
    · subst hk
      have hfe : (xs.filter fun e => decide (e.1 = ka)) = [] := by
        rw [List.filter_eq_nil_iff]
        intro e he
        simp only [decide_eq_true_eq]
        intro he1
        exact h.1 (he1 ▸ List.mem_map.mpr ⟨e, he, rfl⟩)
      simp [List.filter_cons, hfe]
    · have h2 : ¬ k = ka := fun h' => hk h'.symm
      have hiff : (k ∈ ka :: xs.map Prod.fst) ↔ (k ∈ xs.map Prod.fst) := by
        simp [List.mem_cons, h2]
      simp only [List.filter_cons, decide_eq_true_eq]
      rw [if_neg hk, ih h.2]
      by_cases hm : k ∈ xs.map Prod.fst <;> simp [hm, hiff]

/-- Counting the streaming-phase emissions attributable to a key that is
present in the map: one per left item carrying that key. -/
theorem streaming_filter_length {K LV RV : Type} [DecidableEq K]
    (L : List (K × LV)) (m : List (K × List RV)) (k : K)
    (g : (K × LV) → List RV → EitherOrBoth LV (List RV))
    (hk : lookupM m k ≠ none) :
    ((L.filterMap fun p => (lookupM m p.1).map fun vs => (p.1, g p vs)).filter
        fun e => decide (e.1 = k)).length
      = (L.filter fun p => decide (p.1 = k)).length := by
  induction L with
  | nil => simp
  | cons p L ih =>
    cases hl : lookupM m p.1 with
    | none =>
      have hp : ¬ p.1 = k := fun h => hk (h ▸ hl)
      simp only [List.filterMap_cons, hl]
      simp [List.filter_cons, hp, ih]
    | some vs =>
      by_cases hp : p.1 = k <;>
        · simp only [List.filterMap_cons, hl]
          simp [List.filter_cons, hp, ih]

/-- C3's counterexample.  With duplicate left keys the claim "every distinct
right key appears in the output exactly once across the `Both` and `Right`
arms" fails: key `0` occurs in the right input, yet the right-outer join of
`[(0,"a"),(0,"b")]` with `[(0,"x")]` emits two elements attributable to
key `0` (one `Both` per matching left item). -/
theorem hash_right_outer_count_cex :
    ((0 : Nat) ∈ ([((0 : Nat), "x")] : List (Nat × String)).map Prod.fst)
    ∧ ((hash_join_right_outer_keyed [((0 : Nat), "a"), (0, "b")] [((0 : Nat), "x")]).filter
          fun e => decide (e.1 = (0 : Nat))).length = 2 := by
  decide

/-- C3 (amended).  Hash right-outer completeness holds once the left keys
are pairwise distinct: under that hypothesis every distinct key of the
right input is attributable to exactly one output element across the
`Both` and `Right` arms, and a right key unmatched by any left item is
attributable only to `Right`-arm elements (the second part needs no
distinctness).  Without the hypothesis a right key matched by `n`
duplicate left items appears `n` times in the `Both` arm
(`hash_right_outer_count_cex`). -/
theorem hash_right_outer_completeness {K LV RV : Type} [DecidableEq K]
    (L : List (K × LV)) (R : List (K × RV))
    (hnd : (L.map Prod.fst).Nodup) (k : K) (hk : k ∈ R.map Prod.fst) :
    ((hash_join_right_outer_keyed L R).filter fun e => decide (e.1 = k)).length = 1
    ∧ (k ∉ L.map Prod.fst →
        ∀ e ∈ hash_join_right_outer_keyed L R, e.1 = k → e.2.isRightArm = true) := by
  constructor
  · unfold hash_join_right_outer_keyed
    simp only [List.filter_append, List.length_append]
    by_cases hkl : k ∈ L.map Prod.fst
    · -- the key is matched: the drain phase skips it, the streaming phase
      -- emits one `Both` for the unique left item carrying it
      have hdrain : ((((buildMulti R).filter fun e => !(L.any fun q => decide (q.1 = e.1))).map
            fun e => (e.1, (EitherOrBoth.right e.2 : EitherOrBoth LV (List RV)))).filter
          fun e => decide (e.1 = k)) = [] := by
        rw [List.filter_eq_nil_iff]
        intro e he
        obtain ⟨e', he', rfl⟩ := List.mem_map.mp he
        have hf := (List.mem_filter.mp he').2
        simp only [decide_eq_true_eq]
        intro hek
        obtain ⟨q, hq, hq1⟩ := List.mem_map.mp hkl
        have hany : L.any (fun q => decide (q.1 = e'.1)) = true :=
          List.any_eq_true.mpr ⟨q, hq, by simp [hq1, hek]⟩
        simp [hany] at hf
      have hlk : lookupM (buildMulti R) k ≠ none := by
        rw [Ne, lookupM_eq_none_iff, mem_keys_buildMulti]
        exact fun h => h hk
      rw [streaming_filter_length L (buildMulti R) k _ hlk,
        filter_key_length L k hnd, if_pos hkl, hdrain]
      simp
    · -- the key is unmatched: the streaming phase never emits it, the
      -- drain phase emits its single map entry as `Right`
      have hstream : ((L.filterMap fun p => (lookupM (buildMulti R) p.1).map
            fun vs => (p.1, EitherOrBoth.both p.2 vs)).filter fun e => decide (e.1 = k)) = [] := by
        rw [List.filter_eq_nil_iff]
        intro e he
        obtain ⟨p, hp, hpe⟩ := List.mem_filterMap.mp he
        cases hl : lookupM (buildMulti R) p.1 with
        | none => rw [hl] at hpe; exact absurd hpe (by simp)
        | some vs =>
          rw [hl] at hpe
          have hpe2 : (p.1, EitherOrBoth.both p.2 vs) = e := Option.some_inj.mp hpe
          simp only [decide_eq_true_eq]
          intro hek
          have hpk : p.1 = k := by rw [← hpe2] at hek; exact hek
          exact hkl (hpk ▸ List.mem_map.mpr ⟨p, hp, rfl⟩)
      rw [hstream, List.filter_map, List.filter_filter]
      have hcongr : ((buildMulti R).filter fun e =>
            (decide (e.1 = k) && !(L.any fun q => decide (q.1 = e.1))))
          = (buildMulti R).filter fun e => decide (e.1 = k) := by
        apply List.filter_congr
        intro e _
        by_cases hek : e.1 = k
        · have hany : (L.any fun q => decide (q.1 = k)) = false := by
            apply Bool.eq_false_iff.mpr
            intro hany
            obtain ⟨q, hq, hq1⟩ := List.any_eq_true.mp hany
            simp only [decide_eq_true_eq] at hq1
            exact hkl (List.mem_map.mpr ⟨q, hq, hq1⟩)
          rw [hek]
          simp [hany]
        · simp [hek]
      dsimp only [Function.comp_def]
      rw [hcongr, List.length_map,
        filter_key_length _ k (nodup_keys_buildMulti R),
        if_pos ((mem_keys_buildMulti R k).mpr hk)]
      simp
  · intro hkl e he hek
    unfold hash_join_right_outer_keyed at he
    rcases List.mem_append.mp he with hs | hd
    · obtain ⟨p, hp, hpe⟩ := List.mem_filterMap.mp hs
      cases hl : lookupM (buildMulti R) p.1 with
      | none => rw [hl] at hpe; exact absurd hpe (by simp)
      | some vs =>
        rw [hl] at hpe
        have hpe2 : (p.1, EitherOrBoth.both p.2 vs) = e := Option.some_inj.mp hpe
        have hpk : p.1 = k := by rw [← hpe2] at hek; exact hek
        exact absurd (hpk ▸ List.mem_map.mpr ⟨p, hp, rfl⟩) hkl
    · obtain ⟨e', _, rfl⟩ := List.mem_map.mp hd
      rfl

/-- Witness for the amended C3 at a concrete input: left `[(0,"a")]`, right
`[(0,"x"),(1,"y")]`; key `0` is matched and attributable to exactly one
output element. -/
theorem hash_right_outer_completeness_witness :
    (([((0 : Nat), "a")] : List (Nat × String)).map Prod.fst).Nodup
    ∧ ((0 : Nat) ∈ ([((0 : Nat), "x"), (1, "y")] : List (Nat × String)).map Prod.fst)
    ∧ (((hash_join_right_outer_keyed [((0 : Nat), "a")]
            [((0 : Nat), "x"), (1, "y")]).filter fun e => decide (e.1 = (0 : Nat))).length = 1
        ∧ ((0 : Nat) ∉ ([((0 : Nat), "a")] : List (Nat × String)).map Prod.fst →
            ∀ e ∈ hash_join_right_outer_keyed [((0 : Nat), "a")] [((0 : Nat), "x"), (1, "y")],
              e.1 = 0 → e.2.isRightArm = true)) :=
  ⟨by decide, by decide,
    hash_right_outer_completeness [((0 : Nat), "a")] [((0 : Nat), "x"), (1, "y")]
      (by decide) 0 (by decide)⟩

/-! ## Duality of the exclusive joins -/

theorem flatten_filter_insertMulti [DecidableEq K] (m : List (K × List V)) (k : K) (v : V)
    (keep : K → Bool) :
    ((((insertMulti m k v).filter fun e => keep e.1).map Prod.snd).flatten).Perm
      ((((m.filter fun e => keep e.1).map Prod.snd).flatten)
        ++ (if keep k then [v] else [])) := by
  induction m with
  | nil =>
    by_cases h : keep k <;> simp [insertMulti, h]
  | cons a m ih =>
    obtain ⟨ka, vs⟩ := a
    by_cases hak : ka = k
    · subst hak
      by_cases h : keep ka
      · simp only [insertMulti, if_pos rfl, List.filter_cons, h, if_true, List.map_cons,
          List.flatten_cons]
        rw [List.append_assoc, List.append_assoc]
        exact List.Perm.append_left vs List.perm_append_comm
      · simp [insertMulti, List.filter_cons, h]
    · simp only [insertMulti, if_neg hak, List.filter_cons]
      by_cases h : keep ka
      · simp only [h, if_true, List.map_cons, List.flatten_cons]
        rw [List.append_assoc]
        exact List.Perm.append_left vs ih
      · simpa [h] using ih

theorem buildMulti_append_single [DecidableEq K] (R : List (K × V)) (p : K × V) :
    buildMulti (R ++ [p]) = insertMulti (buildMulti R) p.1 p.2 := by
  unfold buildMulti
  rw [List.foldl_append]
  rfl

/-- As a multiset, the flattened value lists of the key-filtered multimap
are exactly the values of the key-filtered right input. -/
theorem flatten_filter_buildMulti [DecidableEq K] (R : List (K × V)) (keep : K → Bool) :
    ((((buildMulti R).filter fun e => keep e.1).map Prod.snd).flatten).Perm
      ((R.filter fun q => keep q.1).map Prod.snd) := by
  induction R using List.reverseRecOn with
  | nil => simp [buildMulti]
  | append_singleton R p ih =>
    rw [buildMulti_append_single]
    refine (flatten_filter_insertMulti _ _ _ _).trans ?_
    rw [List.filter_append, List.map_append]
    refine ih.append ?_
    by_cases h : keep p.1 <;> simp [List.filter_cons, h]

theorem hash_join_left_excl_eq_filter [DecidableEq K] (L : List (K × LV)) (R : List (K × RV)) :
    hash_join_left_excl L R
      = (L.filter fun p => !(R.any fun q => decide (q.1 = p.1))).map Prod.snd := by
  unfold hash_join_left_excl
  induction L with
  | nil => simp
  | cons p L ih =>
    by_cases h : R.any (fun q => decide (q.1 = p.1)) <;>
      simp [List.filterMap_cons, List.filter_cons, h, ih]

/-- C4.  Duality: the values emitted by `hash_join_right_excl L R`
(flattened across its per-key lists) are, as a collection, exactly the
values emitted by `hash_join_left_excl R L` - the left-exclusive operator
run with the two inputs swapped. -/
theorem hash_excl_duality {K LV RV : Type} [DecidableEq K]
    (L : List (K × LV)) (R : List (K × RV)) :
    ((hash_join_right_excl L R).flatten).Perm (hash_join_left_excl R L) := by
  rw [hash_join_left_excl_eq_filter]
  unfold hash_join_right_excl
  exact flatten_filter_buildMulti R (fun k => !(L.any fun q => decide (q.1 = k)))

/-! ## Merge-join operators (src/merge_join.rs)

Each operator is a loop over two peekable cursors.  The list-level
functions below compute the total output stream of each iterator: one
recursive equation per loop iteration, with the `fused` drain states of
the outer modes appearing as the one-sided base cases (setting
`fused = Less` and then repeatedly returning `left.next()` yields exactly
the remaining left elements, and symmetrically for `Greater`). -/

/-- `MergeJoinInner::next` (src/merge_join.rs lines 62-78): peek both
sides; stop when either is empty; drop the smaller side on `Less`/
`Greater`; consume both and emit the pair on `Equal`. -/
def merge_join_inner (cmp : α → β → Ordering) : List α → List β → List (α × β)
  | [], _ => []
  | _ :: _, [] => []
  | l :: ls, r :: rs =>
    match cmp l r with
    | .lt => merge_join_inner cmp ls (r :: rs)
    | .gt => merge_join_inner cmp (l :: ls) rs
    | .eq => (l, r) :: merge_join_inner cmp ls rs
  termination_by l r => l.length + r.length

/-- `MergeJoinLeftExcl::next` (src/merge_join.rs lines 122-145): emit the
left element on `Less`, drop the right on `Greater`, drop both on `Equal`;
once the right side is exhausted (`fused = Less`) the remaining left
elements are all emitted. -/
def merge_join_left_excl (cmp : α → β → Ordering) : List α → List β → List α
  | [], _ => []
  | l :: ls, [] => l :: ls
  | l :: ls, r :: rs =>
    match cmp l r with
    | .lt => l :: merge_join_left_excl cmp ls (r :: rs)
    | .gt => merge_join_left_excl cmp (l :: ls) rs
    | .eq => merge_join_left_excl cmp ls rs
  termination_by l r => l.length + r.length

/-- `MergeJoinLeftOuter::next` (src/merge_join.rs lines 189-215): emit
`Left(l)` on `Less`, drop the right on `Greater`, emit `Both(l, r)` on
`Equal`; once the right side is exhausted the remaining left elements are
drained as `Left`. -/
def merge_join_left_outer (cmp : α → β → Ordering) :
    List α → List β → List (EitherOrBoth α β)
  | [], _ => []
  | l :: ls, [] => (l :: ls).map .left
  | l :: ls, r :: rs =>
    match cmp l r with
    | .lt => .left l :: merge_join_left_outer cmp ls (r :: rs)
    | .gt => merge_join_left_outer cmp (l :: ls) rs
    | .eq => .both l r :: merge_join_left_outer cmp ls rs
  termination_by l r => l.length + r.length

/-- `MergeJoinFullOuter::next` (src/merge_join.rs lines 259-292): emit
`Left(l)` on `Less`, `Right(r)` on `Greater`, `Both(l, r)` on `Equal`;
when one side is exhausted the other is drained as `Left`/`Right`. -/
def merge_join_full_outer (cmp : α → β → Ordering) :
    List α → List β → List (EitherOrBoth α β)
  | [], rs => rs.map .right
  | l :: ls, [] => (l :: ls).map .left
  | l :: ls, r :: rs =>
    match cmp l r with
    | .lt => .left l :: merge_join_full_outer cmp ls (r :: rs)
    | .gt => .right r :: merge_join_full_outer cmp (l :: ls) rs
    | .eq => .both l r :: merge_join_full_outer cmp ls rs
  termination_by l r => l.length + r.length

/-- The comparator both CLI front-ends supply to the merge family:
`|l, r| Ord::cmp(&l.0, &r.0)` (src/bin/mjoin.rs), i.e. compare the keys of
the two `(key, group)` items. -/
def cmpFst {K G G' : Type} [LinearOrder K] (l : K × G) (r : K × G') : Ordering :=
  compare l.1 r.1

/-- The key of an emitted outer-join element, taking the left key of
`Both`. -/
def eobKey {K G G' : Type} : EitherOrBoth (K × G) (K × G') → K
  | .left l => l.1
  | .right r => r.1
  | .both l _ => l.1

/-- Strengthened monotonicity invariant for the inner merge join: the
emitted key sequence is non-decreasing, and its first key dominates the
keys at both cursors. -/
theorem merge_inner_mono_aux {K G G' : Type} [LinearOrder K]
    (L : List (K × G)) (R : List (K × G'))
    (hL : List.Chain' (fun a b => a.1 < b.1) L)
    (hR : List.Chain' (fun a b => a.1 < b.1) R) :
    List.Chain' (· ≤ ·) ((merge_join_inner cmpFst L R).map fun e => e.1.1)
    ∧ ∀ k ∈ ((merge_join_inner cmpFst L R).map fun e => e.1.1).head?,
        (∀ l ∈ L.head?, l.1 ≤ k) ∧ ∀ r ∈ R.head?, r.1 ≤ k := by
  induction L, R using merge_join_inner.induct (@cmpFst K G G' inferInstance) with
  | case1 rs => simp [merge_join_inner]
  | case2 l ls => simp [merge_join_inner]
  | case3 l ls r rs h ih =>
    have hlt : l.1 < r.1 := compare_lt_iff_lt.mp (by unfold cmpFst at h; exact h)
    obtain ⟨ih1, ih2⟩ := ih hL.tail hR
    rw [merge_join_inner]
    simp only [h]
    refine ⟨ih1, fun k hk => ?_⟩
    obtain ⟨-, ihr⟩ := ih2 k hk
    have hrk : r.1 ≤ k := ihr r (by simp)
    exact ⟨fun l' hl' => by simp at hl'; rw [← hl']; exact (hlt.trans_le hrk).le,
      fun r' hr' => by simp at hr'; rw [← hr']; exact hrk⟩
  | case4 l ls r rs h ih =>
    have hgt : r.1 < l.1 := compare_gt_iff_gt.mp (by unfold cmpFst at h; exact h)
    obtain ⟨ih1, ih2⟩ := ih hL hR.tail
    rw [merge_join_inner]
    simp only [h]
    refine ⟨ih1, fun k hk => ?_⟩
    obtain ⟨ihl, -⟩ := ih2 k hk
    have hlk : l.1 ≤ k := ihl l (by simp)
    exact ⟨fun l' hl' => by simp at hl'; rw [← hl']; exact hlk,
      fun r' hr' => by simp at hr'; rw [← hr']; exact (hgt.trans_le hlk).le⟩
  | case5 l ls r rs h ih =>
    have heq : l.1 = r.1 := compare_eq_iff_eq.mp (by unfold cmpFst at h; exact h)
    obtain ⟨ih1, ih2⟩ := ih hL.tail hR.tail
    rw [merge_join_inner]
    simp only [h]
    constructor
    · rw [List.map_cons, List.chain'_cons']
      refine ⟨fun k hk => ?_, ih1⟩
      obtain ⟨ihl, ihr⟩ := ih2 k hk
      cases ls with
      | nil => simp [merge_join_inner] at hk
      | cons l' ls' =>
        have h1 : l.1 < l'.1 := (List.chain'_cons.mp hL).1
        exact (h1.le.trans (ihl l' (by simp)))
    · intro k hk
      simp only [List.map_cons, List.head?_cons, Option.mem_def, Option.some_inj] at hk
      rw [← hk]
      exact ⟨fun l' hl' => by simp at hl'; rw [← hl'],
        fun r' hr' => by simp at hr'; rw [← hr']; exact heq.ge⟩

/-- The left-exclusive merge join emits a subsequence of its left input
(every emission is `self.left.next()`). -/
theorem merge_join_left_excl_sublist (cmp : α → β → Ordering) (L : List α) (R : List β) :
    (merge_join_left_excl cmp L R).Sublist L := by
  induction L, R using merge_join_left_excl.induct cmp with
  | case1 rs => simp [merge_join_left_excl]
  | case2 l ls => rw [merge_join_left_excl]
  | case3 l ls r rs h ih =>
    rw [merge_join_left_excl]
    simp only [h]
    exact ih.cons₂ l
  | case4 l ls r rs h ih =>
    rw [merge_join_left_excl]
    simp only [h]
    exact ih
  | case5 l ls r rs h ih =>
    rw [merge_join_left_excl]
    simp only [h]
    exact ih.cons l

/-- The key sequence of the left-outer merge join is a subsequence of the
left key sequence (`Left`/`Both` emissions both carry the key of the left
element they consume). -/
theorem merge_join_left_outer_keys_sublist {K G G' : Type} [LinearOrder K]
    (L : List (K × G)) (R : List (K × G')) :
    ((merge_join_left_outer cmpFst L R).map eobKey).Sublist (L.map fun l => l.1) := by
  induction L, R using merge_join_left_outer.induct (@cmpFst K G G' inferInstance) with
  | case1 rs => simp [merge_join_left_outer]
  | case2 l ls =>
    rw [merge_join_left_outer]
    simp only [List.map_map]
    exact (List.map_congr_left fun a _ => rfl) ▸ List.Sublist.refl _
  | case3 l ls r rs h ih =>
    rw [merge_join_left_outer]
    simp only [h, List.map_cons]
    exact ih.cons₂ l.1
  | case4 l ls r rs h ih =>
    rw [merge_join_left_outer]
    simp only [h]
    exact ih
  | case5 l ls r rs h ih =>
    rw [merge_join_left_outer]
    simp only [h, List.map_cons]
    exact ih.cons₂ l.1

/-- Strengthened monotonicity invariant for the full-outer merge join: the
emitted key sequence is non-decreasing and its first key dominates the key
at one of the two cursors. -/
theorem merge_full_outer_mono_aux {K G G' : Type} [LinearOrder K]
    (L : List (K × G)) (R : List (K × G'))
    (hL : List.Chain' (fun a b => a.1 < b.1) L)
    (hR : List.Chain' (fun a b => a.1 < b.1) R) :
    List.Chain' (· ≤ ·) ((merge_join_full_outer cmpFst L R).map eobKey)
    ∧ ∀ k ∈ ((merge_join_full_outer cmpFst L R).map eobKey).head?,
        (∃ l ∈ L.head?, l.1 ≤ k) ∨ (∃ r ∈ R.head?, r.1 ≤ k) := by
  induction L, R using merge_join_full_outer.induct (@cmpFst K G G' inferInstance) with
  | case1 rs =>
    rw [merge_join_full_outer]
    constructor
    · simp only [List.map_map]
      rw [List.chain'_map]
      exact hR.imp fun a b hab => hab.le
    · intro k hk
      cases rs with
      | nil => simp at hk
      | cons r rs' =>
        simp only [List.map_map, List.map_cons, List.head?_cons, Option.mem_def,
          Option.some_inj] at hk
        right
        exact ⟨r, by simp, le_of_eq hk⟩
  | case2 l ls =>
    rw [merge_join_full_outer]
    constructor
    · simp only [List.map_map]
      rw [List.chain'_map]
      exact hL.imp fun a b hab => hab.le
    · intro k hk
      simp only [List.map_map, List.map_cons, List.head?_cons, Option.mem_def,
        Option.some_inj] at hk
      left
      exact ⟨l, by simp, le_of_eq hk⟩
  | case3 l ls r rs h ih =>
    have hlt : l.1 < r.1 := compare_lt_iff_lt.mp (by unfold cmpFst at h; exact h)
    obtain ⟨ih1, ih2⟩ := ih hL.tail hR
    rw [merge_join_full_outer]
    simp only [h, List.map_cons]
    constructor
    · rw [List.chain'_cons']
      refine ⟨fun y hy => ?_, ih1⟩
      rcases ih2 y hy with ⟨l', hl', hly⟩ | ⟨r', hr', hry⟩
      · cases ls with
        | nil => simp at hl'
        | cons l0 ls' =>
          simp only [List.head?_cons, Option.mem_def, Option.some_inj] at hl'
          have : l.1 < l0.1 := (List.chain'_cons.mp hL).1
          rw [← hl'] at hly
          exact (this.trans_le hly).le
      · simp only [List.head?_cons, Option.mem_def, Option.some_inj] at hr'
        rw [← hr'] at hry
        exact (hlt.trans_le hry).le
    · intro k hk
      simp only [List.head?_cons, Option.mem_def, Option.some_inj] at hk
      left
      exact ⟨l, by simp, le_of_eq (by rw [← hk]; rfl)⟩
  | case4 l ls r rs h ih =>
    have hgt : r.1 < l.1 := compare_gt_iff_gt.mp (by unfold cmpFst at h; exact h)
    obtain ⟨ih1, ih2⟩ := ih hL hR.tail
    rw [merge_join_full_outer]
    simp only [h, List.map_cons]
    constructor
    · rw [List.chain'_cons']
      refine ⟨fun y hy => ?_, ih1⟩
      rcases ih2 y hy with ⟨l', hl', hly⟩ | ⟨r', hr', hry⟩
      · simp only [List.head?_cons, Option.mem_def, Option.some_inj] at hl'
        rw [← hl'] at hly
        exact (hgt.trans_le hly).le
      · cases rs with
        | nil => simp at hr'
        | cons r0 rs' =>
          simp only [List.head?_cons, Option.mem_def, Option.some_inj] at hr'
          have : r.1 < r0.1 := (List.chain'_cons.mp hR).1
          rw [← hr'] at hry
          exact (this.trans_le hry).le
    · intro k hk
      simp only [List.head?_cons, Option.mem_def, Option.some_inj] at hk
      right
      exact ⟨r, by simp, le_of_eq (by rw [← hk]; rfl)⟩
  | case5 l ls r rs h ih =>
    have heq : l.1 = r.1 := compare_eq_iff_eq.mp (by unfold cmpFst at h; exact h)
    obtain ⟨ih1, ih2⟩ := ih hL.tail hR.tail
    rw [merge_join_full_outer]
    simp only [h, List.map_cons]
    constructor
    · rw [List.chain'_cons']
      refine ⟨fun y hy => ?_, ih1⟩
      show l.1 ≤ y
      rcases ih2 y hy with ⟨l', hl', hly⟩ | ⟨r', hr', hry⟩
      · cases ls with
        | nil => simp at hl'
        | cons l0 ls' =>
          simp only [List.head?_cons, Option.mem_def, Option.some_inj] at hl'
          have : l.1 < l0.1 := (List.chain'_cons.mp hL).1
          rw [← hl'] at hly
          exact (this.trans_le hly).le
      · cases rs with
        | nil => simp at hr'
        | cons r0 rs' =>
          simp only [List.head?_cons, Option.mem_def, Option.some_inj] at hr'
          have : r.1 < r0.1 := (List.chain'_cons.mp hR).1
          rw [← hr'] at hry
          rw [heq]
          exact (this.trans_le hry).le
    · intro k hk
      simp only [List.head?_cons, Option.mem_def, Option.some_inj] at hk
      left
      exact ⟨l, by simp, le_of_eq (by rw [← hk]; rfl)⟩

/-- C2.  Merge monotonicity: for every merge mode (inner, left-excl,
left-outer, full-outer), if both input sequences are sorted strictly
ascending on the key under the supplied comparator (`cmpFst`, the
key-comparing comparator the CLI supplies), then the sequence of keys of
the emitted elements - taking the left key of `Both` - is non-decreasing.
(The CLI's right-excl / right-outer modes are the left operators with the
inputs swapped, so they are instances of the second and third
conjuncts.) -/
theorem merge_monotonicity {K G G' : Type} [LinearOrder K]
    (L : List (K × G)) (R : List (K × G'))
    (hL : List.Chain' (fun a b => a.1 < b.1) L)
    (hR : List.Chain' (fun a b => a.1 < b.1) R) :
    List.Chain' (· ≤ ·) ((merge_join_inner cmpFst L R).map fun e => e.1.1)
    ∧ List.Chain' (· ≤ ·) ((merge_join_left_excl cmpFst L R).map fun e => e.1)
    ∧ List.Chain' (· ≤ ·) ((merge_join_left_outer cmpFst L R).map eobKey)
    ∧ List.Chain' (· ≤ ·) ((merge_join_full_outer cmpFst L R).map eobKey) := by
  refine ⟨(merge_inner_mono_aux L R hL hR).1, ?_, ?_,
    (merge_full_outer_mono_aux L R hL hR).1⟩
  · have hp : L.Pairwise (fun a b => a.1 < b.1) :=
      (@List.chain'_iff_pairwise _ _ ⟨fun a b c hab hbc => hab.trans hbc⟩ _).mp hL
    have hp2 := hp.sublist (merge_join_left_excl_sublist cmpFst L R)
    rw [List.chain'_map]
    exact hp2.chain'.imp fun a b hab => hab.le
  · have hkL : List.Chain' (· < ·) (L.map fun l => l.1) := by
      rw [List.chain'_map]; exact hL
    have hp : (L.map fun l => l.1).Pairwise (· < ·) :=
      (@List.chain'_iff_pairwise _ _ ⟨fun a b c hab hbc => hab.trans hbc⟩ _).mp hkL
    have hp2 := hp.sublist (merge_join_left_outer_keys_sublist L R)
    exact hp2.chain'.imp fun a b hab => hab.le

/-- Witness for C2 at a concrete input: both sides sorted strictly
ascending on `Nat` keys. -/
theorem merge_monotonicity_witness :
    (List.Chain' (fun a b => a.1 < b.1) [((1 : Nat), "a"), (2, "b")]
      ∧ List.Chain' (fun a b => a.1 < b.1) [((2 : Nat), "x"), (3, "y")])
    ∧ (List.Chain' (· ≤ ·)
        ((merge_join_inner cmpFst [((1 : Nat), "a"), (2, "b")]
            [((2 : Nat), "x"), (3, "y")]).map fun e => e.1.1)
      ∧ List.Chain' (· ≤ ·)
        ((merge_join_left_excl cmpFst [((1 : Nat), "a"), (2, "b")]
            [((2 : Nat), "x"), (3, "y")]).map fun e => e.1)
      ∧ List.Chain' (· ≤ ·)
        ((merge_join_left_outer cmpFst [((1 : Nat), "a"), (2, "b")]
            [((2 : Nat), "x"), (3, "y")]).map eobKey)
      ∧ List.Chain' (· ≤ ·)
        ((merge_join_full_outer cmpFst [((1 : Nat), "a"), (2, "b")]
            [((2 : Nat), "x"), (3, "y")]).map eobKey)) :=
  ⟨⟨by simp, by simp⟩,
    merge_monotonicity [((1 : Nat), "a"), (2, "b")] [((2 : Nat), "x"), (3, "y")]
      (by simp) (by simp)⟩

/-! ## Per-call state machines of the merge-join family

For the robustness claim the operators are modelled at the granularity of a
single `next()` call: the state is (remaining left, remaining right, fused
register), `next` either returns an item and the successor state or signals
exhaustion, and the internal `loop { ... continue ... }` appears as
recursion that consumes one input element per iteration.  No sortedness is
assumed anywhere.  The loop bodies contain no panicking operation (every
`match` arm is total), which the models reflect by returning `Option`
without any error outcome. -/

/-- One `next()` call of `MergeJoinInner` (src/merge_join.rs lines 62-78). -/
def nextInner (cmp : α → β → Ordering) :
    List α × List β → Option ((α × β) × (List α × List β))
  | ([], _) => none
  | (_ :: _, []) => none
  | (l :: ls, r :: rs) =>
    match cmp l r with
    | .lt => nextInner cmp (ls, r :: rs)
    | .gt => nextInner cmp (l :: ls, rs)
    | .eq => some ((l, r), (ls, rs))
  termination_by s => s.1.length + s.2.length

/-- One `next()` call of `MergeJoinLeftExcl` (src/merge_join.rs lines
122-145).  The `fused` register only ever holds `Less` in this operator, so
it is modelled as a `Bool` ("right side known exhausted"). -/
def nextLeftExcl (cmp : α → β → Ordering) :
    List α × List β × Bool → Option (α × (List α × List β × Bool))
  | (l :: ls, rs, true) => some (l, (ls, rs, true))
  | ([], _, true) => none
  | (l :: ls, r :: rs, false) =>
    match cmp l r with
    | .lt => some (l, (ls, r :: rs, false))
    | .gt => nextLeftExcl cmp (l :: ls, rs, false)
    | .eq => nextLeftExcl cmp (ls, rs, false)
  | (l :: ls, [], false) => some (l, (ls, [], true))
  | ([], _, false) => none
  termination_by s => s.1.length + s.2.1.length

/-- One `next()` call of `MergeJoinLeftOuter` (src/merge_join.rs lines
189-215); `fused` modelled as in `nextLeftExcl`. -/
def nextLeftOuter (cmp : α → β → Ordering) :
    List α × List β × Bool → Option (EitherOrBoth α β × (List α × List β × Bool))
  | (l :: ls, rs, true) => some (.left l, (ls, rs, true))
  | ([], _, true) => none
  | (l :: ls, r :: rs, false) =>
    match cmp l r with
    | .lt => some (.left l, (ls, r :: rs, false))
    | .gt => nextLeftOuter cmp (l :: ls, rs, false)
    | .eq => some (.both l r, (ls, rs, false))
  | (l :: ls, [], false) => some (.left l, (ls, [], true))
  | ([], _, false) => none
  termination_by s => s.1.length + s.2.1.length

/-- The `match ord` block closing each iteration of
`MergeJoinFullOuter::next` (src/merge_join.rs lines 277-290). -/
def foStep (ls : List α) (rs : List β) (f : Option Ordering) :
    Ordering → Option (EitherOrBoth α β × (List α × List β × Option Ordering))
  | .lt =>
    match ls with
    | l :: ls' => some (.left l, (ls', rs, f))
    | [] => none
  | .gt =>
    match rs with
    | r :: rs' => some (.right r, (ls, rs', f))
    | [] => none
  | .eq =>
    match ls, rs with
    | l :: ls', r :: rs' => some (.both l r, (ls', rs', f))
    | _, _ => none

/-- One `next()` call of `MergeJoinFullOuter` (src/merge_join.rs lines
259-292).  Every arm of the `match ord` returns, so this call involves no
looping at all: compute `ord` from the fused register or the two peeks
(fusing on a one-sided exhaustion) and execute the step. -/
def nextFullOuter (cmp : α → β → Ordering) :
    List α × List β × Option Ordering
      → Option (EitherOrBoth α β × (List α × List β × Option Ordering))
  | (ls, rs, some ord) => foStep ls rs (some ord) ord
  | (l :: ls, r :: rs, none) => foStep (l :: ls) (r :: rs) none (cmp l r)
  | (l :: ls, [], none) => foStep (l :: ls) [] (some .lt) .lt
  | ([], r :: rs, none) => foStep [] (r :: rs) (some .gt) .gt
  | ([], [], none) => none

/-- `n` successive `next()` pulls from state `s`: `none` when the stream
signalled exhaustion within the `n` pulls, otherwise the reached state. -/
def pulls (next : σ → Option (ι × σ)) : Nat → σ → Option σ
  | 0, s => some s
  | n + 1, s =>
    match next s with
    | none => none
    | some (_, s') => pulls next n s'

/-- Any `next` function that strictly decreases a natural measure on every
emission exhausts its stream within `measure + 1` pulls. -/
theorem pulls_none_of_measure {σ ι : Type _} (next : σ → Option (ι × σ)) (μ : σ → Nat)
    (hdec : ∀ s it s', next s = some (it, s') → μ s' < μ s) :
    ∀ n s, μ s < n → pulls next n s = none := by
  intro n
  induction n with
  | zero => intro s h; omega
  | succ n ih =>
    intro s h
    rcases hns : next s with - | ⟨it, s'⟩
    · simp [pulls, hns]
    · have := hdec s it s' hns
      simp only [pulls, hns]
      exact ih s' (by omega)

theorem nextInner_decreases (cmp : α → β → Ordering) :
    ∀ s it s', nextInner cmp s = some (it, s') →
      s'.1.length + s'.2.length < s.1.length + s.2.length := by
  intro s
  induction s using nextInner.induct cmp with
  | case1 rs => intro it s' h; rw [nextInner] at h; exact absurd h (by simp)
  | case2 l ls => intro it s' h; rw [nextInner] at h; exact absurd h (by simp)
  | case3 l ls r rs h ih =>
    intro it s' hs
    rw [nextInner] at hs
    simp only [h] at hs
    have := ih it s' hs
    simp at this ⊢
    omega
  | case4 l ls r rs h ih =>
    intro it s' hs
    rw [nextInner] at hs
    simp only [h] at hs
    have := ih it s' hs
    simp at this ⊢
    omega
  | case5 l ls r rs h =>
    intro it s' hs
    rw [nextInner] at hs
    simp only [h, Option.some.injEq, Prod.mk.injEq] at hs
    obtain ⟨-, rfl⟩ := hs
    simp
    omega

theorem nextLeftExcl_decreases (cmp : α → β → Ordering) :
    ∀ s it s', nextLeftExcl cmp s = some (it, s') →
      s'.1.length + s'.2.1.length < s.1.length + s.2.1.length := by
  intro s
  induction s using nextLeftExcl.induct cmp with
  | case1 l ls rs =>
    intro it s' h
    rw [nextLeftExcl] at h
    simp only [Option.some.injEq, Prod.mk.injEq] at h
    obtain ⟨-, rfl⟩ := h
    simp
  | case2 rs =>
    intro it s' h
    rw [nextLeftExcl] at h
    exact absurd h (by simp)
  | case3 l ls r rs h =>
    intro it s' hs
    rw [nextLeftExcl] at hs
    simp only [h, Option.some.injEq, Prod.mk.injEq] at hs
    obtain ⟨-, rfl⟩ := hs
    simp
  | case4 l ls r rs h ih =>
    intro it s' hs
    rw [nextLeftExcl] at hs
    simp only [h] at hs
    have := ih it s' hs
    simp at this ⊢
    omega
  | case5 l ls r rs h ih =>
    intro it s' hs
    rw [nextLeftExcl] at hs
    simp only [h] at hs
    have := ih it s' hs
    simp at this ⊢
    omega
  | case6 l ls =>
    intro it s' h
    rw [nextLeftExcl] at h
    simp only [Option.some.injEq, Prod.mk.injEq] at h
    obtain ⟨-, rfl⟩ := h
    simp
  | case7 rs =>
    intro it s' h
    rw [nextLeftExcl] at h
    exact absurd h (by simp)

theorem nextLeftOuter_decreases (cmp : α → β → Ordering) :
    ∀ s it s', nextLeftOuter cmp s = some (it, s') →
      s'.1.length + s'.2.1.length < s.1.length + s.2.1.length := by
  intro s
  induction s using nextLeftOuter.induct cmp with
  | case1 l ls rs =>
    intro it s' h
    rw [nextLeftOuter] at h
    simp only [Option.some.injEq, Prod.mk.injEq] at h
    obtain ⟨-, rfl⟩ := h
    simp
  | case2 rs =>
    intro it s' h
    rw [nextLeftOuter] at h
    exact absurd h (by simp)
  | case3 l ls r rs h =>
    intro it s' hs
    rw [nextLeftOuter] at hs
    simp only [h, Option.some.injEq, Prod.mk.injEq] at hs
    obtain ⟨-, rfl⟩ := hs
    simp
  | case4 l ls r rs h ih =>
    intro it s' hs
    rw [nextLeftOuter] at hs
    simp only [h] at hs
    have := ih it s' hs
    simp at this ⊢
    omega
  | case5 l ls r rs h =>
    intro it s' hs
    rw [nextLeftOuter] at hs
    simp only [h, Option.some.injEq, Prod.mk.injEq] at hs
    obtain ⟨-, rfl⟩ := hs
    simp
    omega
  | case6 l ls =>
    intro it s' h
    rw [nextLeftOuter] at h
    simp only [Option.some.injEq, Prod.mk.injEq] at h
    obtain ⟨-, rfl⟩ := h
    simp
  | case7 rs =>
    intro it s' h
    rw [nextLeftOuter] at h
    exact absurd h (by simp)

theorem foStep_decreases {ls : List α} {rs : List β} {f : Option Ordering} {ord : Ordering}
    {it : EitherOrBoth α β} {s' : List α × List β × Option Ordering}
    (h : foStep ls rs f ord = some (it, s')) :
    s'.1.length + s'.2.1.length < ls.length + rs.length := by
  cases ord with
  | lt =>
    cases ls with
    | nil => exact absurd h (by simp [foStep])
    | cons l ls' =>
      simp only [foStep, Option.some.injEq, Prod.mk.injEq] at h
      obtain ⟨-, rfl⟩ := h
      simp
  | gt =>
    cases rs with
    | nil => exact absurd h (by simp [foStep])
    | cons r rs' =>
      simp only [foStep, Option.some.injEq, Prod.mk.injEq] at h
      obtain ⟨-, rfl⟩ := h
      simp
  | eq =>
    cases ls with
    | nil => exact absurd h (by simp [foStep])
    | cons l ls' =>
      cases rs with
      | nil => exact absurd h (by simp [foStep])
      | cons r rs' =>
        simp only [foStep, Option.some.injEq, Prod.mk.injEq] at h
        obtain ⟨-, rfl⟩ := h
        simp
        omega

theorem nextFullOuter_decreases (cmp : α → β → Ordering) :
    ∀ s it s', nextFullOuter cmp s = some (it, s') →
      s'.1.length + s'.2.1.length < s.1.length + s.2.1.length := by
  intro s it s' h
  obtain ⟨ls, rs, f⟩ := s
  cases f with
  | some ord =>
    rw [nextFullOuter] at h
    exact foStep_decreases h
  | none =>
    cases ls with
    | nil =>
      cases rs with
      | nil => rw [nextFullOuter] at h; exact absurd h (by simp)
      | cons r rs' => rw [nextFullOuter] at h; exact foStep_decreases h
    | cons l ls' =>
      cases rs with
      | nil => rw [nextFullOuter] at h; exact foStep_decreases h
      | cons r rs' => rw [nextFullOuter] at h; exact foStep_decreases h

/-- C5.  Merge robustness under violated preconditions: for arbitrary
finite inputs (sorted or not, duplicate keys allowed) and an arbitrary
comparator, each merge-join operator's stream is exhausted - `next()`
returns `None` - within `|L| + |R| + 1` pulls.  Each `next()` call itself
terminates (its internal loop consumes one input element per iteration,
which is the well-founded measure justifying the `next` models above) and
has no panicking path. -/
theorem merge_robustness {α β : Type} (cmp : α → β → Ordering)
    (L : List α) (R : List β) :
    pulls (nextInner cmp) (L.length + R.length + 1) (L, R) = none
    ∧ pulls (nextLeftExcl cmp) (L.length + R.length + 1) (L, R, false) = none
    ∧ pulls (nextLeftOuter cmp) (L.length + R.length + 1) (L, R, false) = none
    ∧ pulls (nextFullOuter cmp) (L.length + R.length + 1) (L, R, none) = none :=
  ⟨pulls_none_of_measure _ (fun s => s.1.length + s.2.length)
      (nextInner_decreases cmp) _ _ (by simp),
    pulls_none_of_measure _ (fun s => s.1.length + s.2.1.length)
      (nextLeftExcl_decreases cmp) _ _ (by simp),
    pulls_none_of_measure _ (fun s => s.1.length + s.2.1.length)
      (nextLeftOuter_decreases cmp) _ _ (by simp),
    pulls_none_of_measure _ (fun s => s.1.length + s.2.1.length)
      (nextFullOuter_decreases cmp) _ _ (by simp)⟩

/-! ## Key extraction utilities (src/util.rs) -/

/-- `util::DataType` (src/util.rs lines 11-19): the recognized type tags. -/
inductive DataType where
  | I
  | U
  | S
deriving DecidableEq

/-- `util::VarData` (src/util.rs lines 22-30): a typed key atom.  `i64` is
modelled as an `Int` whose range was enforced at parse time, `u64` as a
`Nat` below `2 ^ 64`. -/
inductive VarData where
  | I (n : Int)
  | U (n : Nat)
  | S (s : String)
deriving DecidableEq

/-- Rust `str::split` with a non-empty string pattern: scan left to right,
splitting at each non-overlapping occurrence of the pattern.  `acc` holds
the current field, reversed. -/
def splitSepGo (s0 : Char) (srest : List Char) : List Char → List Char → List (List Char)
  | [], acc => [acc.reverse]
  | c :: cs, acc =>
    if (s0 :: srest).isPrefixOf (c :: cs) then
      acc.reverse :: splitSepGo s0 srest (List.drop srest.length cs) []
    else
      splitSepGo s0 srest cs (c :: acc)
  termination_by s _ => s.length
  decreasing_by
  · simp
    have := List.length_drop srest.length cs
    omega
  · simp

/-- Rust `str::split` as used by the crate.  The CLI's separators are
always non-empty; Rust's special treatment of an empty pattern is not
modelled (an empty separator yields the whole record), and no claim
exercises it. -/
def splitSep (sep s : String) : List String :=
  match sep.data with
  | [] => [s]
  | c :: cs => (splitSepGo c cs s.data []).map fun l => String.mk l

/-- `util::num_fields` (src/util.rs lines 244-247): the number of
field-separator-delimited tokens of a record. -/
def num_fields (record : String) (field_sep : String) : Nat :=
  (splitSep field_sep record).length

/-- The numeric value of a non-empty all-digit character sequence, `none`
otherwise. -/
def digitsVal : List Char → Option Nat
  | [] => none
  | cs =>
    if cs.all (fun c => c.isDigit)
    then some (cs.foldl (fun n c => n * 10 + (c.toNat - 48)) 0)
    else none

/-- Rust `str::parse::<u64>()` (and `usize` on a 64-bit host): optional
leading `+`, one or more digits, value below `2 ^ 64`; anything else -
including overflow - is a parse error. -/
def parse_u64 (s : String) : Option Nat :=
  let cs := match s.data with
    | '+' :: rest => rest
    | cs => cs
  (digitsVal cs).bind fun n => if n < 2 ^ 64 then some n else none

/-- Rust `str::parse::<i64>()`: optional sign, digits, value within the
`i64` range. -/
def parse_i64 (s : String) : Option Int :=
  match s.data with
  | '-' :: rest => (digitsVal rest).bind fun n =>
      if (n : Int) ≤ 2 ^ 63 then some (-(n : Int)) else none
  | '+' :: rest => (digitsVal rest).bind fun n =>
      if n < 2 ^ 63 then some ((n : Nat) : Int) else none
  | cs => (digitsVal cs).bind fun n =>
      if n < 2 ^ 63 then some ((n : Nat) : Int) else none

/-- The failure modes of `util::fields_to_idx` (src/util.rs lines 74-133).
The first four are the `clap::Error` validation errors the function
returns; `usizeUnderflow` is not a validation error: it models the `u - 1`
underflow on `usize` for a field index token `"0"` (a panic in checked
builds; release builds would wrap to `usize::MAX` and carry on). -/
inductive FtiError where
  | parseIntError
  | badDataType (s : String)
  | emptyFields
  | duplicateFields
  | usizeUnderflow
deriving DecidableEq

/-- Processing of one field token by the `fields_to_idx` loop (src/util.rs
lines 76-108): split the token on `'-'` and keep the first two parts
(`take(2)`); parse the 1-based index from the first part and convert it to
0-based with the `usize` subtraction `u - 1`; the optional second part must
be `"i"` or `"u"` and overwrites the type tag of the entry just pushed.
`i0` is the token's position, recorded so the caller can reassemble the
user-declared order after sorting. -/
def parseToken (i0 : Nat) (s : String) : Except FtiError (Nat × Int × DataType) :=
  match (splitSep "-" s).take 2 with
  | [] => .error .parseIntError
  | p0 :: rest =>
    match parse_u64 p0 with
    | none => .error .parseIntError
    | some u =>
      if u = 0 then .error .usizeUnderflow
      else
        match rest with
        | [] => .ok (u - 1, (i0 : Int), DataType.S)
        | p1 :: _ =>
          match p1 with
          | "i" => .ok (u - 1, (i0 : Int), DataType.I)
          | "u" => .ok (u - 1, (i0 : Int), DataType.U)
          | _ => .error (.badDataType p1)

/-- The parsing loop of `fields_to_idx` (src/util.rs lines 76-108) over the
enumerated tokens: one pushed triple per token, first error wins. -/
def parseFields : Nat → List String → Except FtiError (List (Nat × Int × DataType))
  | _, [] => .ok []
  | i0, s :: rest =>
    match parseToken i0 s with
    | .error e => .error e
    | .ok t =>
      match parseFields (i0 + 1) rest with
      | .error e => .error e
      | .ok ts => .ok (t :: ts)

/-- The adjacent-duplicate scan of `fields_to_idx` (src/util.rs lines
111-131) over the sorted triples. -/
def checkDup : (Nat × Int × DataType) → List (Nat × Int × DataType) → Except FtiError Unit
  | _, [] => .ok ()
  | prev, cur :: rest =>
    if prev.1 = cur.1 then .error .duplicateFields else checkDup cur rest

/-- `util::fields_to_idx` (src/util.rs lines 74-133): parse every token,
sort the triples by the 0-based field index (`sort_by` is stable, modelled
by `mergeSort`), then reject an empty result (`emptyFields`) or adjacent
duplicate indices (`duplicateFields`). -/
def fields_to_idx (f : List String) : Except FtiError (List (Nat × Int × DataType)) :=
  match parseFields 0 f with
  | .error e => .error e
  | .ok idx =>
    match idx.mergeSort fun a b => decide (a.1 ≤ b.1) with
    | [] => .error .emptyFields
    | t :: ts =>
      match checkDup t ts with
      | .error e => .error e
      | .ok _ => .ok (t :: ts)

/-- C10.  The field token `"0"` parses as the unsigned integer `0`, so
`fields_to_idx` does not reach any of its validation errors; instead the
1-based-to-0-based conversion computes `0 - 1` on `usize`, which underflows
(a panic in checked builds, a wrap to `usize::MAX` under wrapping
semantics) rather than producing the diagnostic-and-exit behaviour that
malformed field lists get. -/
theorem fields_to_idx_zero_underflow :
    parse_u64 "0" = some 0
    ∧ fields_to_idx ["0"] = Except.error FtiError.usizeUnderflow
    ∧ FtiError.usizeUnderflow ≠ FtiError.parseIntError
    ∧ FtiError.usizeUnderflow ≠ FtiError.emptyFields
    ∧ FtiError.usizeUnderflow ≠ FtiError.duplicateFields
    ∧ ∀ s, FtiError.usizeUnderflow ≠ FtiError.badDataType s := by
  refine ⟨?_, ?_, by decide, by decide, by decide, fun s h => by cases h⟩
  · simp [parse_u64, digitsVal]
  · simp [fields_to_idx, parseFields, parseToken, splitSep, splitSepGo,
      parse_u64, digitsVal]

/-- Success of the parsing loop: one output triple per input token, each
obtained by `parseToken` at the token's enumerated position. -/
theorem parseFields_ok (f : List String) :
    ∀ (i0 : Nat) (idx : List (Nat × Int × DataType)),
      parseFields i0 f = Except.ok idx →
      idx.length = f.length
      ∧ ∀ j t, idx[j]? = some t → ∃ s, f[j]? = some s ∧ parseToken (i0 + j) s = Except.ok t := by
  induction f with
  | nil =>
    intro i0 idx h
    simp only [parseFields] at h
    cases h
    simp
  | cons s rest ih =>
    intro i0 idx h
    simp only [parseFields] at h
    cases ht : parseToken i0 s with
    | error e => rw [ht] at h; cases h
    | ok t =>
      rw [ht] at h
      cases hr : parseFields (i0 + 1) rest with
      | error e => rw [hr] at h; cases h
      | ok ts =>
        rw [hr] at h
        cases h
        obtain ⟨hlen, hpt⟩ := ih (i0 + 1) ts hr
        refine ⟨by simp [hlen], ?_⟩
        intro j t' hj
        cases j with
        | zero =>
          simp only [List.getElem?_cons_zero, Option.some_inj] at hj
          exact ⟨s, by simp, by rw [← hj]; simpa using ht⟩
        | succ j' =>
          simp only [List.getElem?_cons_succ] at hj
          obtain ⟨s', hs', hps'⟩ := hpt j' t' hj
          refine ⟨s', by simpa using hs', ?_⟩
          have : i0 + 1 + j' = i0 + (j' + 1) := by omega
          rw [← this]
          exact hps'

/-- The duplicate scan succeeds exactly when no two adjacent field indices
coincide. -/
theorem checkDup_ok_iff (t : Nat × Int × DataType) (ts : List (Nat × Int × DataType)) :
    checkDup t ts = Except.ok () ↔ List.Chain' (fun a b => a.1 ≠ b.1) (t :: ts) := by
  induction ts generalizing t with
  | nil => simp [checkDup]
  | cons c rest ih =>
    by_cases h : t.1 = c.1
    · simp [checkDup, h, List.chain'_cons]
    · simp only [checkDup, if_neg h, List.chain'_cons]
      rw [ih c]
      simp [h]

theorem chain'_lt_of_le_ne (l : List (Nat × Int × DataType))
    (hle : List.Chain' (fun a b => a.1 ≤ b.1) l)
    (hne : List.Chain' (fun a b => a.1 ≠ b.1) l) :
    List.Chain' (fun a b => a.1 < b.1) l := by
  induction l with
  | nil => simp
  | cons a l ih =>
    rw [List.chain'_cons'] at hle hne ⊢
    exact ⟨fun y hy => lt_of_le_of_ne (hle.1 y hy) (hne.1 y hy), ih hle.2 hne.2⟩

/-- C7.  Field-plan validation: whenever `fields_to_idx` succeeds, the
input token list was non-empty, every token's index part parsed as an
unsigned integer with a recognized (or absent) type tag, the parsed
0-based indices are pairwise distinct, and the returned plan is non-empty
and sorted strictly ascending by the 0-based source field index.
Contrapositively: an empty list, an unparseable index token, an unknown
type tag, or duplicate field indices all make `fields_to_idx` return an
error. -/
theorem fields_to_idx_validation (f : List String) (r : List (Nat × Int × DataType))
    (h : fields_to_idx f = Except.ok r) :
    f ≠ [] ∧ r ≠ [] ∧ List.Chain' (fun a b => a.1 < b.1) r
    ∧ (∀ i s, f[i]? = some s → ∃ t, parseToken i s = Except.ok t)
    ∧ (∀ i j si sj ti tj, i < j → f[i]? = some si → f[j]? = some sj →
        parseToken i si = Except.ok ti → parseToken j sj = Except.ok tj →
        ti.1 ≠ tj.1) := by
  unfold fields_to_idx at h
  cases hp : parseFields 0 f with
  | error e => simp only [hp] at h; exact absurd h (by simp)
  | ok idx =>
    simp only [hp] at h
    cases hms : idx.mergeSort (fun a b => decide (a.1 ≤ b.1)) with
    | nil => simp only [hms] at h; exact absurd h (by simp)
    | cons t ts =>
      simp only [hms] at h
      cases hcd : checkDup t ts with
      | error e => simp only [hcd] at h; exact absurd h (by simp)
      | ok u =>
        cases u
        simp only [hcd, Except.ok.injEq] at h
        subst h
        obtain ⟨hlen, hpt⟩ := parseFields_ok f 0 idx hp
        have hsorted : List.Pairwise
            (fun a b : Nat × Int × DataType => decide (a.1 ≤ b.1) = true) (t :: ts) := by
          rw [← hms]
          exact List.sorted_mergeSort
            (fun a b c hab hbc => by
              simp only [decide_eq_true_eq] at hab hbc ⊢; omega)
            (fun a b => by
              simp only [Bool.or_eq_true, decide_eq_true_eq]; omega) idx
        have hle : List.Chain' (fun a b : Nat × Int × DataType => a.1 ≤ b.1) (t :: ts) :=
          (hsorted.imp fun hab => by simpa using hab).chain'
        have hne : List.Chain' (fun a b : Nat × Int × DataType => a.1 ≠ b.1) (t :: ts) :=
          (checkDup_ok_iff t ts).mp hcd
        have hlt : List.Chain' (fun a b : Nat × Int × DataType => a.1 < b.1) (t :: ts) :=
          chain'_lt_of_le_ne _ hle hne
        have hperm : (t :: ts).Perm idx := by
          rw [← hms]; exact List.mergeSort_perm idx _
        have hpw_r : List.Pairwise (fun a b : Nat × Int × DataType => a.1 < b.1) (t :: ts) :=
          (@List.chain'_iff_pairwise (Nat × Int × DataType) (fun a b => a.1 < b.1)
            ⟨fun a b c hab hbc => lt_trans hab hbc⟩ (t :: ts)).mp hlt
        have hpw_r2 : List.Pairwise (fun a b : Nat × Int × DataType => a.1 ≠ b.1) (t :: ts) :=
          hpw_r.imp fun hab => ne_of_lt hab
        have hpw : List.Pairwise (fun a b : Nat × Int × DataType => a.1 ≠ b.1) idx :=
          (hperm.pairwise_iff fun hab h' => hab h'.symm).mp hpw_r2
        refine ⟨?_, by simp, hlt, ?_, ?_⟩
        · intro hf
          subst hf
          simp only [parseFields, Except.ok.injEq] at hp
          rw [← hp] at hms
          simp at hms
        · intro i s hi
          have hil : i < f.length := (List.getElem?_eq_some_iff.mp hi).1
          have hil2 : i < idx.length := by rw [hlen]; exact hil
          obtain ⟨s', hs', hps'⟩ :=
            hpt i (idx.get ⟨i, hil2⟩) (List.getElem?_eq_some_iff.mpr ⟨hil2, rfl⟩)
          have hss : s' = s := Option.some_inj.mp (hs'.symm.trans hi)
          rw [hss] at hps'
          exact ⟨idx.get ⟨i, hil2⟩, by simpa using hps'⟩
        · intro i j si sj ti tj hij hfi hfj hpi hpj
          have hil : i < f.length := (List.getElem?_eq_some_iff.mp hfi).1
          have hjl : j < f.length := (List.getElem?_eq_some_iff.mp hfj).1
          have hil2 : i < idx.length := by rw [hlen]; exact hil
          have hjl2 : j < idx.length := by rw [hlen]; exact hjl
          obtain ⟨si', hsi', hpi'⟩ :=
            hpt i (idx.get ⟨i, hil2⟩) (List.getElem?_eq_some_iff.mpr ⟨hil2, rfl⟩)
          obtain ⟨sj', hsj', hpj'⟩ :=
            hpt j (idx.get ⟨j, hjl2⟩) (List.getElem?_eq_some_iff.mpr ⟨hjl2, rfl⟩)
          have hsi2 : si' = si := Option.some_inj.mp (hsi'.symm.trans hfi)
          have hsj2 : sj' = sj := Option.some_inj.mp (hsj'.symm.trans hfj)
          rw [hsi2] at hpi'
          rw [hsj2] at hpj'
          simp only [Nat.zero_add] at hpi' hpj'
          have hti : ti = idx.get ⟨i, hil2⟩ :=
            Except.ok.inj (hpi.symm.trans hpi')
          have htj : tj = idx.get ⟨j, hjl2⟩ :=
            Except.ok.inj (hpj.symm.trans hpj')
          rw [hti, htj]
          exact List.pairwise_iff_getElem.mp hpw i j hil2 hjl2 hij

/-- Witness for C7 at a concrete input: the field list `["1", "3-i"]`
produces the plan `[(0, 0, S), (2, 1, I)]`. -/
theorem fields_to_idx_validation_witness :
    (fields_to_idx ["1", "3-i"]
        = Except.ok [((0 : Nat), (0 : Int), DataType.S), (2, 1, DataType.I)])
    ∧ ((["1", "3-i"] : List String) ≠ []
      ∧ [((0 : Nat), (0 : Int), DataType.S), (2, 1, DataType.I)] ≠ []
      ∧ List.Chain' (fun a b => a.1 < b.1)
          [((0 : Nat), (0 : Int), DataType.S), (2, 1, DataType.I)]
      ∧ (∀ i s, (["1", "3-i"] : List String)[i]? = some s →
          ∃ t, parseToken i s = Except.ok t)
      ∧ (∀ i j si sj ti tj, i < j → (["1", "3-i"] : List String)[i]? = some si →
          (["1", "3-i"] : List String)[j]? = some sj →
          parseToken i si = Except.ok ti → parseToken j sj = Except.ok tj →
          ti.1 ≠ tj.1)) := by
  have hEval : fields_to_idx ["1", "3-i"]
      = Except.ok [((0 : Nat), (0 : Int), DataType.S), (2, 1, DataType.I)] := by
    simp [fields_to_idx, parseFields, parseToken, splitSep, splitSepGo,
      parse_u64, digitsVal, List.mergeSort, checkDup]
  exact ⟨hEval, fields_to_idx_validation _ _ hEval⟩

/-- Parsing of one key atom according to its type tag (src/util.rs lines
170-186); the `expect` calls abort the process on failure, modelled as
`none`. -/
def parseAtom : DataType → String → Option VarData
  | .I, s => (parse_i64 s).map VarData.I
  | .U, s => (parse_u64 s).map VarData.U
  | .S, s => some (VarData.S s)

/-- `util::extract_key` (src/util.rs lines 156-198).  Tokenize the record
by the field separator, enumerate the tokens, and inner-merge-join them
with the plan on the source field index (the code literally calls
`merge_join_inner_by` with `Ord::cmp(&l.0, &r.0)`).  Each hit parses its
token per the plan entry's type tag and is `ptr::write`-placed at the
entry's output position `i`; a later write to the same slot overwrites an
earlier one, and a slot never written holds uninitialised memory (both are
impossible for plans produced by `fields_to_idx`; the unwritten-slot case
is modelled as `none`).  Finally the number of placed atoms must equal the
plan length, otherwise the record has fewer fields than the plan requires
and the function panics (`none`). -/
def extract_key (record : String) (field_sep : String)
    (key_idx : List (Nat × Int × DataType)) : Option (List VarData) :=
  let toks := (splitSep field_sep record).enum
  let hits := merge_join_inner (fun l r => compare l.1 r.1) toks key_idx
  (hits.mapM fun h => (parseAtom h.2.2.2 h.1.2).map fun d => (h.2.2.1, d)).bind
    fun writes =>
      if writes.length = key_idx.length then
        (List.range key_idx.length).mapM fun j =>
          ((writes.filter fun w => decide (w.1 = (j : Int))).getLast?).map Prod.snd
      else none

/-- C6.  Key-extraction permutation: for record `"a;b;1"`, field separator
`";"`, and plan `[(0, 1, String), (2, 0, SignedInt)]`, each parsed atom is
placed at its plan-declared output position, so the extracted composite
key is `[SignedInt(1), String("a")]`. -/
theorem extract_key_permutation :
    extract_key "a;b;1" ";" [(0, 1, DataType.S), (2, 0, DataType.I)]
      = some [VarData.I 1, VarData.S "a"] := by
  have htoks : (splitSep ";" "a;b;1").enum = [(0, "a"), (1, "b"), (2, "1")] := by
    simp [splitSep, splitSepGo, List.enum]
  have hjoin : merge_join_inner (fun l r => compare l.1 r.1)
      [((0 : Nat), "a"), (1, "b"), (2, "1")]
      [((0 : Nat), (1 : Int), DataType.S), (2, 0, DataType.I)]
      = [((0, "a"), (0, 1, DataType.S)), ((2, "1"), (2, 0, DataType.I))] := by
    simp only [merge_join_inner]
    decide
  simp only [extract_key]
  rw [htoks, hjoin]
  simp [parseAtom, parse_i64, digitsVal, List.range_succ]
  decide

/-! ## CLI output padding (src/util.rs, src/bin/mjoin.rs, src/bin/hjoin.rs) -/

/-- `util::write_left` (src/util.rs lines 261-268), with the output byte
stream modelled as a string: the left record, then `r_len` copies of the
output field separator in place of the missing right fields, then the
record separator. -/
def write_left (lv : String) (r_len : Nat) (fs rs : String) : String :=
  lv ++ String.join (List.replicate r_len fs) ++ rs

/-- The right-arity computation of mjoin's outer arms (src/bin/mjoin.rs
lines 291-294, and symmetrically lines 287-290 for the left side): peek
the first `(key, group)` element of the grouped right stream and take
`(t.0).len()` - the length of the composite KEY TUPLE, not a token count
of any record. -/
def mjoinRightArity (records_right : List (List VarData × List String)) : Nat :=
  match records_right with
  | [] => 0
  | t :: _ => t.1.length

/-- Modelled from the spec (§6.2: "The `left_arity` and `right_arity` are
computed once from the first record of the respective side (count of
`FS`-delimited tokens)") - which is also what hjoin implements by calling
`util::num_fields` on the first record (src/bin/hjoin.rs lines 249-256):
the number of field-separator-delimited tokens of the first record of the
side. -/
def specRightArity (records_right : List (List VarData × List String))
    (fs : String) : Nat :=
  match records_right with
  | [] => 0
  | (_, recs) :: _ =>
    match recs with
    | [] => 0
    | rec0 :: _ => num_fields rec0 fs

/-- C8, evaluated at the failing input.  `util::write_left` does emit the
left record followed by `right_arity` separators and the record separator,
but mjoin's full-outer arm computes `right_arity` as the length of the
first right group's KEY TUPLE (`(t.0).len()`), not as the token count of
the first right record that its own comment ("find the number of fields"),
the spec, and the hjoin sibling prescribe.  With field separator `";"`,
first right record `"x;y;z"` and a single-field join key, the code pads 1
separator where 3 are required: a `Left`-only emission for record `"l"` is
written `"l;\n"` instead of `"l;;;\n"`. -/
theorem mjoin_padding_arity_bug :
    mjoinRightArity [([VarData.S "x"], ["x;y;z"])] = 1
    ∧ num_fields "x;y;z" ";" = 3
    ∧ specRightArity [([VarData.S "x"], ["x;y;z"])] ";" = 3
    ∧ write_left "l" (mjoinRightArity [([VarData.S "x"], ["x;y;z"])]) ";" "\n" = "l;\n"
    ∧ write_left "l" (specRightArity [([VarData.S "x"], ["x;y;z"])] ";") ";" "\n" = "l;;;\n"
    ∧ write_left "l" (mjoinRightArity [([VarData.S "x"], ["x;y;z"])]) ";" "\n"
        ≠ write_left "l" (specRightArity [([VarData.S "x"], ["x;y;z"])] ";") ";" "\n" := by
  refine ⟨rfl, ?_, ?_, ?_, ?_, ?_⟩
  · simp [num_fields, splitSep, splitSepGo]
  · simp [specRightArity, num_fields, splitSep, splitSepGo]
  · simp [write_left, mjoinRightArity, String.join]
  · simp [write_left, specRightArity, num_fields, splitSep, splitSepGo, String.join]
  · simp [write_left, mjoinRightArity, specRightArity, num_fields, splitSep,
      splitSepGo, String.join]
